import Mathlib

/-!
Verification of the VQA trainer (src/VQA.py, src/utils.py).

The circuit is modelled as a list of gate operations; rotation angles are
rationals (idealizing floating-point reals).  The quantum backend and the
classical optimizer are external collaborators: backend measurement counts and
the optimizer's result triple are inputs of the modelled functions.
-/

set_option linter.unusedVariables false

namespace VQA

/-- Gate operations emitted by VQA.Ansatz: qiskit `qc.u`, `qc.ry`, `qc.rz`,
`qc.cx`, and the terminal `qc.measure(qr, cr)` of all qubits into the
classical register. -/
inductive Gate where
  | u : ℚ → ℚ → ℚ → ℕ → Gate
  | ry : ℚ → ℕ → Gate
  | rz : ℚ → ℕ → Gate
  | cx : ℕ → ℕ → Gate
  | measureAll : ℕ → Gate
deriving DecidableEq

/-- Test for a 3-parameter u rotation gate. -/
def isU : Gate → Bool
  | Gate.u _ _ _ _ => true
  | _ => false

/-- Function prob_dist of utils.py: divide every count by shots, in iteration
order; if the list has exactly one entry, append `1 - output_distr[0]`. -/
def prob_dist (counts : List (String × ℚ)) (shots : ℚ) : List ℚ :=
  let output_distr := counts.map (fun kv => kv.2 / shots)
  if output_distr.length = 1 then output_distr ++ [1 - output_distr.getD 0 0]
  else output_distr

/-- Binary characters of j, most significant bit first, by structural recursion
on a fuel argument; with fuel ≥ j ≥ 1 this is the digit list of format(j, "b"). -/
def binChars : ℕ → ℕ → List Char
  | 0, _ => []
  | fuel + 1, j =>
    if j = 0 then [] else binChars fuel (j / 2) ++ [if j % 2 = 1 then '1' else '0']

/-- Python format(j, "b"): the binary representation of j, and "0" for j = 0. -/
def formatB (j : ℕ) : String :=
  if j = 0 then "0" else String.mk (binChars j j)

/-- Zero left-padding loop of VQA.py (`while len(check) < self.n: check = "0" + check`). -/
def zeroPad (n : ℕ) (s : String) : String :=
  String.mk (List.replicate (n - s.length) '0' ++ s.data)

/-- Zero-padded width-n binary key built by the reconciliation loop (lines 161-165). -/
def binaryCheck (n j : ℕ) : String := zeroPad n (formatB j)

/-- One iteration of the backfill loop of objective_function (lines 159-170): keep
the dictionary if the key is present, otherwise insert it at the end with count 0. -/
def reconcileStep (n : ℕ) (acc : List (String × ℚ)) (j : ℕ) : List (String × ℚ) :=
  let check := binaryCheck n j
  if acc.any (fun kv => kv.1 == check) then acc else acc ++ [(check, 0)]

/-- Lines 157-170 of objective_function: when the number of observed outcomes
differs from the target length, insert every absent zero-padded key with count 0. -/
def reconcile (target_len n : ℕ) (counts : List (String × ℚ)) : List (String × ℚ) :=
  if counts.length ≠ target_len then (List.range target_len).foldl (reconcileStep n) counts
  else counts

/-- Lexicographic comparison of strings by code point, the order Python sorted
uses on the bitstring keys. -/
def charListLE : List Char → List Char → Bool
  | [], _ => true
  | _ :: _, [] => false
  | a :: as, b :: bs =>
    if a.toNat < b.toNat then true
    else if b.toNat < a.toNat then false
    else charListLE as bs

/-- Python dict(sorted(d.items())): the entries sorted by key ascending. -/
def sortByKey (l : List (String × ℚ)) : List (String × ℚ) :=
  List.insertionSort (fun a b => charListLE a.1.data b.1.data = true) l

/-- Probability vector computed inside objective_function (lines 153-177):
backfill missing outcomes, sort by key, and normalize with prob_dist. -/
def evaluator_distribution (target_len n : ℕ) (counts : List (String × ℚ))
    (shots : ℚ) : List ℚ :=
  prob_dist (sortByKey (reconcile target_len n counts)) shots

/-- Display distribution of find_target_distribution (lines 204-206): sort the raw
backend counts and normalize, with no backfill of unobserved outcomes. -/
def display_distribution (counts : List (String × ℚ)) (shots : ℚ) : List ℚ :=
  prob_dist (sortByKey counts) shots

/-- One U3 rotation layer (lines 62-65): for each qubit j a u gate with angles
params[i+j], params[i+j+1], params[i+j+2], where i is the running cursor. -/
def u3Layer (params : ℕ → ℚ) (n i : ℕ) : List Gate :=
  (List.range n).map
    (fun j => Gate.u (params (i + j)) (params (i + j + 1)) (params (i + j + 2)) j)

/-- One RYRZ rotation layer (lines 100-107): an RY block reading params[j+i], then,
the cursor having advanced by n, an RZ block reading params[j+i+n]. -/
def ryrzLayer (params : ℕ → ℚ) (n i : ℕ) : List Gate :=
  (List.range n).map (fun j => Gate.ry (params (j + i)) j)
    ++ (List.range n).map (fun j => Gate.rz (params (j + i + n)) j)

/-- Linear entanglement block (lines 70-75): for k in range(n), break at k = n-1,
otherwise cx(k, k+1). -/
def linearEnt (n : ℕ) : List Gate :=
  ((List.range n).takeWhile (fun k => k != n - 1)).map (fun k => Gate.cx k (k + 1))

/-- Full entanglement block (lines 77-89): for k in range(n), break at k = n-1; the
inner loop over p skips p ≤ k and emits cx(k, p). -/
def fullEnt (n : ℕ) : List Gate :=
  ((List.range n).takeWhile (fun k => k != n - 1)).flatMap
    (fun k => ((List.range n).filter (fun p => !(decide (p ≤ k)))).map (fun p => Gate.cx k p))

/-- Entanglement dispatch shared by both gate families; any unrecognized topology
string only prints a warning and emits no gates. -/
def entGates (entanglement : String) (n : ℕ) : List Gate :=
  if entanglement = "Linear" then linearEnt n
  else if entanglement = "Full" then fullEnt n
  else []

/-- The U3 branch of VQA.Ansatz (lines 58-92): the cursor i advances by n per layer,
so layer d reads from base d*n; the loop breaks after the rotations of the last
layer, before its entanglement block; a measurement of all qubits closes the branch. -/
def ansatzU3 (params : ℕ → ℚ) (n layers : ℕ) (entanglement : String) : List Gate :=
  ((List.range layers).flatMap (fun d =>
      u3Layer params n (d * n) ++ if d = layers - 1 then [] else entGates entanglement n))
    ++ [Gate.measureAll n]

/-- The RYRZ branch of VQA.Ansatz (lines 96-139): the cursor advances by n after the
RY block and by n again after the RZ block, so layer d reads from base 2*d*n. -/
def ansatzRYRZ (params : ℕ → ℚ) (n layers : ℕ) (entanglement : String) : List Gate :=
  ((List.range layers).flatMap (fun d =>
      ryrzLayer params n (2 * d * n) ++ if d = layers - 1 then [] else entGates entanglement n))
    ++ [Gate.measureAll n]

/-- VQA.Ansatz (lines 47-141): both gate-family branches test the gate string on the
same circuit; a gate family other than U3 and RYRZ leaves the circuit untouched. -/
def Ansatz (gate : String) (params : ℕ → ℚ) (n layers : ℕ) (entanglement : String) :
    List Gate :=
  (if gate = "U3" then ansatzU3 params n layers entanglement else [])
    ++ (if gate = "RYRZ" then ansatzRYRZ params n layers entanglement else [])

/-- The params indices the U3 branch reads, in read order (line 64). -/
def u3Reads (n layers : ℕ) : List ℕ :=
  (List.range layers).flatMap (fun d =>
    (List.range n).flatMap (fun j => [d * n + j, d * n + j + 1, d * n + j + 2]))

/-- The params indices the RYRZ branch reads, in read order (lines 101 and 105). -/
def ryrzReads (n layers : ℕ) : List ℕ :=
  (List.range layers).flatMap (fun d =>
    (List.range n).map (fun j => j + 2 * d * n)
      ++ (List.range n).map (fun j => j + 2 * d * n + n))

/-- VQA.__init__ line 34: `self.n = int(math.log(len(target_distribution), 2))`,
with the real logarithm idealized as exact: math.log raises ValueError on length 0,
and otherwise the truncated base-2 logarithm is Nat.log 2. -/
def vqa_init_n (len : ℕ) : Except String ℕ :=
  if len = 0 then Except.error "math domain error" else Except.ok (Nat.log 2 len)

/-- Trainer instance fields set by __init__ and read by Ansatz and
objective_function; params is the mutable self.params. -/
structure VQAConfig where
  target_distr : List ℚ
  gate : String
  layers : ℕ
  entanglement : String
  shots : ℚ
  n : ℕ
  params : ℕ → ℚ
  initial_params : ℕ → ℚ

/-- Line 148 of objective_function: `qc = self.Ansatz()`.  The circuit is built
from self.params; the params argument of objective_function does not occur in
the body of the method. -/
def objective_circuit (s : VQAConfig) (params : ℕ → ℚ) : List Gate :=
  Ansatz s.gate s.params s.n s.layers s.entanglement

/-- The optimizer result triple ret of COBYLA-style optimize: best point, best
cost, repetition count. -/
structure OptResult where
  point : ℕ → ℚ
  cost : ℚ
  reps : ℕ

/-- Trainer attributes readable after find_target_distribution returns. -/
structure VQAPost where
  target_distr : List ℚ
  gate : String
  layers : ℕ
  entanglement : String
  shots : ℚ
  n : ℕ
  params : ℕ → ℚ
  initial_params : ℕ → ℚ
  sorted_output : List (String × ℚ)
  output_distr : List ℚ
  found_parameters : ℕ → ℚ

/-- VQA.find_target_distribution (lines 185-217): store ret[0] in self.params,
re-run the ansatz (the fresh backend counts are an input, the backend being an
external collaborator), sort them, normalize with prob_dist, print the report, and
store sorted_output, output_distr and found_parameters; ret[1] and ret[2] occur
only in print statements, and the method returns None. -/
def find_target_distribution (s : VQAConfig) (ret : OptResult)
    (counts : List (String × ℚ)) : VQAPost :=
  { target_distr := s.target_distr
    gate := s.gate
    layers := s.layers
    entanglement := s.entanglement
    shots := s.shots
    n := s.n
    params := ret.point
    initial_params := s.initial_params
    sorted_output := sortByKey counts
    output_distr := display_distribution counts s.shots
    found_parameters := ret.point }

/-- Value of a binary string, most significant character first; a verification
helper giving a left inverse of binaryCheck n. -/
def parseBin (s : String) : ℕ :=
  s.data.foldl (fun acc c => 2 * acc + if c = '1' then 1 else 0) 0

/-- A concrete all-zero parameter vector. -/
def pZero : ℕ → ℚ := fun _ => 0

/-- A concrete all-one parameter vector. -/
def pOne : ℕ → ℚ := fun _ => 1

/-- A concrete single-qubit trainer configuration. -/
def sampleConfig : VQAConfig :=
  { target_distr := [1/2, 1/2]
    gate := "U3"
    layers := 1
    entanglement := "Linear"
    shots := 1024
    n := 1
    params := fun _ => 1/2
    initial_params := fun _ => 1/2 }

/-! Helper lemmas about the binary keys. -/

theorem foldl_zero_chars (m : ℕ) (cs : List Char) :
    (List.replicate m '0' ++ cs).foldl (fun acc c => 2 * acc + if c = '1' then 1 else 0) 0
      = cs.foldl (fun acc c => 2 * acc + if c = '1' then 1 else 0) 0 := by
  induction m with
  | zero => rfl
  | succ t ih => simpa [List.replicate_succ] using ih

theorem foldl_binChars (fuel : ℕ) :
    ∀ j a : ℕ, j ≤ fuel →
      (binChars fuel j).foldl (fun acc c => 2 * acc + if c = '1' then 1 else 0) a
        = a * 2 ^ (binChars fuel j).length + j := by
  induction fuel with
  | zero =>
    intro j a hj
    have : j = 0 := by omega
    subst this
    simp [binChars]
  | succ f ih =>
    intro j a hj
    by_cases hz : j = 0
    · subst hz; simp [binChars]
    · have hdiv : j / 2 ≤ f := by omega
      have hrec := ih (j / 2) a hdiv
      simp only [binChars, if_neg hz, List.foldl_append, List.length_append,
        List.foldl_cons, List.foldl_nil, List.length_cons, List.length_nil]
      rw [hrec]
      have hbit : (if (if j % 2 = 1 then '1' else '0') = '1' then 1 else 0) = j % 2 := by
        rcases Nat.mod_two_eq_zero_or_one j with h2 | h2 <;> simp [h2]
      rw [hbit]
      have key : 2 * (j / 2) + j % 2 = j := Nat.div_add_mod j 2
      rw [pow_succ]
      set X := 2 ^ (binChars f (j / 2)).length with hX
      calc 2 * (a * X + j / 2) + j % 2
          = a * X * 2 + (2 * (j / 2) + j % 2) := by ring
        _ = a * X * 2 + j := by rw [key]
        _ = a * (X * 2) + j := by ring

theorem parseBin_formatB (j : ℕ) : parseBin (formatB j) = j := by
  by_cases hz : j = 0
  · subst hz; rfl
  · unfold parseBin formatB
    rw [if_neg hz]
    simpa using foldl_binChars j j 0 le_rfl

theorem parseBin_binaryCheck (n j : ℕ) : parseBin (binaryCheck n j) = j := by
  have h1 : parseBin (binaryCheck n j) = parseBin (formatB j) := by
    unfold binaryCheck zeroPad parseBin
    exact foldl_zero_chars _ _
  rw [h1, parseBin_formatB]

theorem binaryCheck_inj (n : ℕ) : Function.Injective (binaryCheck n) := by
  intro x y h
  have hx := parseBin_binaryCheck n x
  rw [h, parseBin_binaryCheck] at hx
  exact hx.symm

/-- Claim C1 (code bug): objective_function is supposed to build the ansatz from
the parameter vector handed to it by the optimizer, but line 148 builds the
circuit from self.params, ignoring its params argument: two calls with different
parameter vectors evaluate the identical circuit. -/
theorem c1_objective_ignores_params :
    objective_circuit sampleConfig pZero = objective_circuit sampleConfig pOne
    ∧ pZero 0 ≠ pOne 0 :=
  ⟨rfl, by norm_num [pZero, pOne]⟩

/-- Claim C2 counterexample: a target distribution of length 3 (not a power of
two) does not fail at construction; n = int(log2(3)) = 1 is silently accepted. -/
theorem c2_counterexample :
    vqa_init_n 3 = Except.ok 1 ∧ 2 ^ Nat.log 2 3 ≠ 3 := by
  have h : Nat.log 2 3 = 1 := Nat.log_eq_of_pow_le_of_lt_pow (by norm_num) (by norm_num)
  exact ⟨by simp [vqa_init_n, h], by simp [h]⟩

/-- Claim C2 (amended): construction fails only for the empty target distribution
(math.log(0) raises); any nonempty length is accepted with qubit count
floor(log2 length); for power-of-two lengths 2^k the derived qubit count is k. -/
theorem c2_construction (len : ℕ) :
    ((vqa_init_n len).isOk ↔ len ≠ 0)
    ∧ (∀ k, len = 2 ^ k → vqa_init_n len = Except.ok k) := by
  constructor
  · by_cases h : len = 0 <;> simp [vqa_init_n, h, Except.isOk, Except.toBool]
  · intro k hk
    subst hk
    have hpos : (2 : ℕ) ^ k ≠ 0 := by positivity
    simp [vqa_init_n, hpos, Nat.log_pow (by norm_num : (1:ℕ) < 2)]

/-- Witness for c2_construction at the concrete length 8 = 2^3. -/
theorem c2_construction_witness :
    (vqa_init_n 8).isOk ∧ vqa_init_n 8 = Except.ok 3 :=
  ⟨((c2_construction 8).1).mpr (by norm_num), (c2_construction 8).2 3 (by norm_num)⟩

/-- Claim C3 counterexample: with the unsupported gate family "CX" the produced
circuit is completely empty, so the terminal measurement claimed to be present
is absent. -/
theorem c3_counterexample :
    Ansatz "CX" pZero 2 3 "Linear" = []
    ∧ Gate.measureAll 2 ∉ Ansatz "CX" pZero 2 3 "Linear"
    ∧ ("CX" ≠ "U3" ∧ "CX" ≠ "RYRZ") := by
  refine ⟨rfl, ?_, by decide⟩
  intro h
  simp [Ansatz] at h

/-- Claim C3 (amended): for every gate-family string other than "U3" and "RYRZ"
the Ansatz builder silently produces a completely empty circuit: no rotation
gates, no entangling gates, and no measurement either, since the measurement
instruction sits inside the two supported branches. -/
theorem c3_unsupported_gate (gate : String) (p : ℕ → ℚ) (n layers : ℕ) (ent : String)
    (h1 : gate ≠ "U3") (h2 : gate ≠ "RYRZ") :
    Ansatz gate p n layers ent = [] := by
  simp [Ansatz, h1, h2]

/-- Witness for c3_unsupported_gate at the concrete gate string "CNOT". -/
theorem c3_unsupported_gate_witness : Ansatz "CNOT" pZero 1 2 "Full" = [] :=
  c3_unsupported_gate "CNOT" pZero 1 2 "Full" (by decide) (by decide)

/-- Claim C6: prob_dist maps each entry of counts to count/shots in iteration
order, and appends a synthesized complement entry exactly when counts has one
entry; on the spec's two examples it returns [0.7, 0.3] and [0.5, 0.5]. -/
theorem c6_prob_dist (counts : List (String × ℚ)) (shots : ℚ) :
    (∀ k v, counts = [(k, v)] → prob_dist counts shots = [v / shots, 1 - v / shots])
    ∧ (counts.length ≠ 1 → prob_dist counts shots = counts.map (fun kv => kv.2 / shots))
    ∧ prob_dist [("0", 700)] 1000 = [7/10, 3/10]
    ∧ prob_dist [("00", 500), ("01", 500)] 1000 = [1/2, 1/2] := by
  refine ⟨?_, ?_, by norm_num [prob_dist], by norm_num [prob_dist]⟩
  · rintro k v rfl
    simp [prob_dist]
  · intro h
    simp [prob_dist, h]

/-- Witness for c6_prob_dist on a concrete single-entry mapping. -/
theorem c6_prob_dist_witness :
    prob_dist [("1", 3)] 4 = [3 / 4, 1 - 3 / 4] :=
  (c6_prob_dist [("1", 3)] 4).1 "1" 3 rfl

/-- Claim C7 counterexample: two optimizer results sharing the best point but
differing in final cost and in iteration count produce identical trainer states,
so neither the final cost nor the iteration count is readable from anything
find_target_distribution stores or returns; they are only printed. -/
theorem c7_counterexample :
    find_target_distribution sampleConfig ⟨pZero, 0, 5⟩ [("0", 1024)]
        = find_target_distribution sampleConfig ⟨pZero, 1, 7⟩ [("0", 1024)]
    ∧ (0 : ℚ) ≠ 1 ∧ (5 : ℕ) ≠ 7 :=
  ⟨rfl, by norm_num, by norm_num⟩

/-- Claim C7 (amended): after the run the trainer exposes, as instance
attributes, the target distribution, the freshly computed display distribution
and sorted counts, the found parameters (also stored back into params), and the
initial parameters; the final cost and the iteration count are only printed. -/
theorem c7_exposed_results (s : VQAConfig) (ret : OptResult)
    (counts : List (String × ℚ)) :
    (find_target_distribution s ret counts).target_distr = s.target_distr
    ∧ (find_target_distribution s ret counts).output_distr
        = prob_dist (sortByKey counts) s.shots
    ∧ (find_target_distribution s ret counts).sorted_output = sortByKey counts
    ∧ (find_target_distribution s ret counts).found_parameters = ret.point
    ∧ (find_target_distribution s ret counts).params = ret.point
    ∧ (find_target_distribution s ret counts).initial_params = s.initial_params :=
  ⟨rfl, rfl, rfl, rfl, rfl, rfl⟩

/-! Helper lemmas about the entanglement blocks and gate counts. -/

theorem takeWhile_all_append {α : Type} {p : α → Bool} {l₁ l₂ : List α}
    (h : ∀ a ∈ l₁, p a = true) :
    (l₁ ++ l₂).takeWhile p = l₁ ++ l₂.takeWhile p := by
  induction l₁ with
  | nil => simp
  | cons a t ih =>
    have ha := h a (by simp)
    simp only [List.cons_append, List.takeWhile_cons, ha, if_true]
    rw [ih (fun x hx => h x (by simp [hx]))]

theorem takeWhile_range_pred (n : ℕ) :
    (List.range n).takeWhile (fun k => k != n - 1) = List.range (n - 1) := by
  cases n with
  | zero => rfl
  | succ m =>
    rw [List.range_succ]
    have hall : ∀ a ∈ List.range m, (fun k => k != m + 1 - 1) a = true := by
      intro a ha
      have : a < m := List.mem_range.1 ha
      simp [Nat.ne_of_lt this]
    rw [takeWhile_all_append hall]
    simp [List.takeWhile_cons]

theorem count_linearEnt (n a b : ℕ) :
    (linearEnt n).count (Gate.cx a b) = if a + 1 = b ∧ b < n then 1 else 0 := by
  unfold linearEnt
  rw [takeWhile_range_pred]
  have hinj : Function.Injective (fun k => Gate.cx k (k + 1)) := by
    intro x y hxy
    simpa using hxy
  by_cases hb : a + 1 = b
  · subst hb
    rw [show Gate.cx a (a + 1) = (fun k => Gate.cx k (k + 1)) a from rfl,
      List.count_map_of_injective _ _ hinj]
    by_cases ha : a < n - 1
    · rw [List.count_eq_one_of_mem (List.nodup_range _) (List.mem_range.2 ha)]
      have h2 : a + 1 < n := by omega
      simp [h2]
    · rw [List.count_eq_zero_of_not_mem (by simpa [List.mem_range] using ha)]
      have h2 : ¬(a + 1 < n) := by omega
      simp [h2]
  · rw [List.count_eq_zero_of_not_mem ?nomem]
    case nomem =>
      intro hmem
      obtain ⟨k, hk, heq⟩ := List.mem_map.1 hmem
      have : k = a ∧ k + 1 = b := by simpa using heq
      omega
    simp [hb]

theorem count_filter_range (n k b : ℕ) :
    ((List.range n).filter (fun p => !(decide (p ≤ k)))).count b
      = if k < b ∧ b < n then 1 else 0 := by
  by_cases h : k < b ∧ b < n
  · rw [List.count_eq_one_of_mem ((List.nodup_range n).filter _)
      (List.mem_filter.2 ⟨List.mem_range.2 h.2, by simp [Nat.not_le.2 h.1]⟩)]
    simp [h]
  · rw [List.count_eq_zero_of_not_mem ?nomem]
    case nomem =>
      intro hmem
      obtain ⟨hb, hp⟩ := List.mem_filter.1 hmem
      have hbn : b < n := List.mem_range.1 hb
      have hkb : k < b := by
        by_contra hc
        simp [Nat.not_lt.1 hc] at hp
      exact h ⟨hkb, hbn⟩
    simp [h]

theorem sum_map_ite_range (m a c : ℕ) :
    ((List.range m).map (fun k => if k = a then c else 0)).sum = if a < m then c else 0 := by
  induction m with
  | zero => simp
  | succ t ih =>
    rw [List.range_succ, List.map_append, List.sum_append, ih]
    simp only [List.map_cons, List.map_nil, List.sum_cons, List.sum_nil]
    rcases Nat.lt_trichotomy a t with h | h | h
    · simp [h, Nat.lt_succ_of_lt h, Nat.ne_of_gt h]
    · subst h
      simp [Nat.lt_irrefl, Nat.lt_succ_self]
    · have h1 : ¬(a < t) := by omega
      have h2 : ¬(a < t + 1) := by omega
      have h3 : t ≠ a := by omega
      simp [h1, h2, h3]

theorem count_fullEnt (n a b : ℕ) :
    (fullEnt n).count (Gate.cx a b) = if a < b ∧ b < n then 1 else 0 := by
  unfold fullEnt
  rw [takeWhile_range_pred, List.count_flatMap]
  have hterm : ∀ k ∈ List.range (n - 1),
      (List.count (Gate.cx a b) ∘ fun k =>
        ((List.range n).filter (fun p => !(decide (p ≤ k)))).map (fun p => Gate.cx k p)) k
        = if k = a then (if a < b ∧ b < n then 1 else 0) else 0 := by
    intro k _
    by_cases hk : k = a
    · subst hk
      have hinj : Function.Injective (fun p => Gate.cx k p) := by
        intro x y hxy
        simpa using hxy
      simp only [Function.comp_apply, if_pos rfl]
      rw [show Gate.cx k b = (fun p => Gate.cx k p) b from rfl,
        List.count_map_of_injective _ _ hinj, count_filter_range]
      simp
    · simp only [Function.comp_apply, if_neg hk]
      rw [List.count_eq_zero_of_not_mem ?nomem]
      case nomem =>
        intro hmem
        obtain ⟨p, hp, heq⟩ := List.mem_map.1 hmem
        have : k = a ∧ p = b := by simpa using heq
        exact hk this.1
  rw [List.map_congr_left hterm, sum_map_ite_range]
  by_cases h : a < b ∧ b < n
  · have han : a < n - 1 := by omega
    simp [h, han]
  · simp [h]

theorem count_cx_u3Layer (p : ℕ → ℚ) (n i a b : ℕ) :
    (u3Layer p n i).count (Gate.cx a b) = 0 := by
  rw [List.count_eq_zero_of_not_mem ?nomem]
  case nomem =>
    intro hmem
    obtain ⟨j, hj, heq⟩ := List.mem_map.1 hmem
    simp at heq

theorem count_cx_ryrzLayer (p : ℕ → ℚ) (n i a b : ℕ) :
    (ryrzLayer p n i).count (Gate.cx a b) = 0 := by
  unfold ryrzLayer
  rw [List.count_append]
  rw [List.count_eq_zero_of_not_mem ?nr, List.count_eq_zero_of_not_mem ?nz]
  case nr =>
    intro hmem
    obtain ⟨j, hj, heq⟩ := List.mem_map.1 hmem
    simp at heq
  case nz =>
    intro hmem
    obtain ⟨j, hj, heq⟩ := List.mem_map.1 hmem
    simp at heq

theorem sum_map_ite_last (L c : ℕ) :
    ((List.range L).map (fun d => if d = L - 1 then 0 else c)).sum = (L - 1) * c := by
  cases L with
  | zero => simp
  | succ M =>
    rw [List.range_succ, List.map_append, List.sum_append]
    have hcong : (List.range M).map (fun d => if d = M + 1 - 1 then 0 else c)
        = (List.range M).map (fun _ => c) := by
      apply List.map_congr_left
      intro d hd
      have : d < M := List.mem_range.1 hd
      simp [Nat.ne_of_lt this]
    rw [hcong]
    simp [List.map_const', List.sum_replicate, smul_eq_mul]

theorem count_cx_ansatzU3 (p : ℕ → ℚ) (n L : ℕ) (ent : String) (a b : ℕ) :
    (ansatzU3 p n L ent).count (Gate.cx a b)
      = (L - 1) * (entGates ent n).count (Gate.cx a b) := by
  unfold ansatzU3
  rw [List.count_append]
  have hm : List.count (Gate.cx a b) [Gate.measureAll n] = 0 := by
    rw [List.count_eq_zero_of_not_mem]
    simp
  rw [hm, Nat.add_zero, List.count_flatMap]
  have hterm : ∀ d ∈ List.range L,
      (List.count (Gate.cx a b) ∘ fun d =>
        u3Layer p n (d * n) ++ if d = L - 1 then [] else entGates ent n) d
        = if d = L - 1 then 0 else (entGates ent n).count (Gate.cx a b) := by
    intro d _
    simp only [Function.comp_apply, List.count_append, count_cx_u3Layer, Nat.zero_add]
    rw [apply_ite (List.count (Gate.cx a b))]
    simp [List.count_nil]
  rw [List.map_congr_left hterm, sum_map_ite_last]

theorem count_cx_ansatzRYRZ (p : ℕ → ℚ) (n L : ℕ) (ent : String) (a b : ℕ) :
    (ansatzRYRZ p n L ent).count (Gate.cx a b)
      = (L - 1) * (entGates ent n).count (Gate.cx a b) := by
  unfold ansatzRYRZ
  rw [List.count_append]
  have hm : List.count (Gate.cx a b) [Gate.measureAll n] = 0 := by
    rw [List.count_eq_zero_of_not_mem]
    simp
  rw [hm, Nat.add_zero, List.count_flatMap]
  have hterm : ∀ d ∈ List.range L,
      (List.count (Gate.cx a b) ∘ fun d =>
        ryrzLayer p n (2 * d * n) ++ if d = L - 1 then [] else entGates ent n) d
        = if d = L - 1 then 0 else (entGates ent n).count (Gate.cx a b) := by
    intro d _
    simp only [Function.comp_apply, List.count_append, count_cx_ryrzLayer, Nat.zero_add]
    rw [apply_ite (List.count (Gate.cx a b))]
    simp [List.count_nil]
  rw [List.map_congr_left hterm, sum_map_ite_last]

theorem count_cx_entGates_one (ent : String) (a b : ℕ) :
    (entGates ent 1).count (Gate.cx a b) = 0 := by
  unfold entGates
  split_ifs
  · rw [count_linearEnt]
    split_ifs with h
    · omega
    · rfl
  · rw [count_fullEnt]
    split_ifs with h
    · omega
    · rfl
  · rfl

/-- Claim C8: per non-final layer the Linear topology emits exactly the gates
cx(k, k+1) for k up to n-2 and the Full topology exactly one cx(k, p) per ordered
pair k < p < n; the cx count of the whole circuit is (layers - 1) times the count
of one entanglement block, so the final layer adds none; and single-qubit
circuits of either family contain no entangling gate at all. -/
theorem c8_entanglement_structure (n L a b : ℕ) (p : ℕ → ℚ) (ent : String) :
    (linearEnt n).count (Gate.cx a b) = (if a + 1 = b ∧ b < n then 1 else 0)
    ∧ (fullEnt n).count (Gate.cx a b) = (if a < b ∧ b < n then 1 else 0)
    ∧ (ansatzU3 p n L ent).count (Gate.cx a b)
        = (L - 1) * (entGates ent n).count (Gate.cx a b)
    ∧ (ansatzRYRZ p n L ent).count (Gate.cx a b)
        = (L - 1) * (entGates ent n).count (Gate.cx a b)
    ∧ (n = 1 → (ansatzU3 p n L ent).count (Gate.cx a b) = 0
        ∧ (ansatzRYRZ p n L ent).count (Gate.cx a b) = 0) := by
  refine ⟨count_linearEnt n a b, count_fullEnt n a b, count_cx_ansatzU3 p n L ent a b,
    count_cx_ansatzRYRZ p n L ent a b, ?_⟩
  rintro rfl
  rw [count_cx_ansatzU3, count_cx_ansatzRYRZ, count_cx_entGates_one]
  simp

/-- Witness for c8_entanglement_structure: a single-qubit two-layer circuit of
either family contains no cx gate. -/
theorem c8_entanglement_structure_witness :
    (ansatzU3 pZero 1 2 "Linear").count (Gate.cx 0 1) = 0
    ∧ (ansatzRYRZ pZero 1 2 "Linear").count (Gate.cx 0 1) = 0 :=
  (c8_entanglement_structure 1 2 0 1 pZero "Linear").2.2.2.2 rfl

/-! Helper lemmas about the parameter indices the two branches read. -/

theorem mem_u3Reads {n L i : ℕ} :
    i ∈ u3Reads n L
      ↔ ∃ d, d < L ∧ ∃ j, j < n ∧ (i = d * n + j ∨ i = d * n + j + 1 ∨ i = d * n + j + 2) := by
  simp only [u3Reads, List.mem_flatMap, List.mem_range, List.mem_cons,
    List.not_mem_nil, or_false]

theorem mem_ryrzReads {n L i : ℕ} :
    i ∈ ryrzReads n L
      ↔ ∃ d, d < L ∧ ∃ j, j < n ∧ (i = j + 2 * d * n ∨ i = j + 2 * d * n + n) := by
  simp only [ryrzReads, List.mem_flatMap, List.mem_range, List.mem_append, List.mem_map]
  constructor
  · rintro ⟨d, hd, ⟨j, hj, hje⟩ | ⟨j, hj, hje⟩⟩
    · exact ⟨d, hd, j, hj, Or.inl hje.symm⟩
    · exact ⟨d, hd, j, hj, Or.inr hje.symm⟩
  · rintro ⟨d, hd, j, hj, hje | hje⟩
    · exact ⟨d, hd, Or.inl ⟨j, hj, hje.symm⟩⟩
    · exact ⟨d, hd, Or.inr ⟨j, hj, hje.symm⟩⟩

theorem u3Reads_le {n L i : ℕ} (h : i ∈ u3Reads n L) : i ≤ n * L + 1 := by
  obtain ⟨d, hd, j, hj, hcase⟩ := mem_u3Reads.1 h
  obtain ⟨M, rfl⟩ : ∃ M, L = M + 1 := ⟨L - 1, by omega⟩
  have h1 : d * n ≤ M * n := Nat.mul_le_mul_right n (by omega)
  have h2 : n * (M + 1) = M * n + n := by ring
  rw [h2]
  rcases hcase with rfl | rfl | rfl <;> linarith

theorem ryrzReads_le {n L i : ℕ} (h : i ∈ ryrzReads n L) : i ≤ 2 * n * L - 1 := by
  obtain ⟨d, hd, j, hj, hcase⟩ := mem_ryrzReads.1 h
  obtain ⟨M, rfl⟩ : ∃ M, L = M + 1 := ⟨L - 1, by omega⟩
  have h1 : 2 * d * n ≤ 2 * M * n := Nat.mul_le_mul_right n (by omega)
  have h2 : 2 * n * (M + 1) = 2 * M * n + 2 * n := by ring
  have key : i < 2 * n * (M + 1) := by
    rw [h2]
    rcases hcase with rfl | rfl <;> linarith
  exact Nat.le_sub_one_of_lt key

theorem u3Reads_length (n L : ℕ) : (u3Reads n L).length = 3 * n * L := by
  unfold u3Reads
  rw [List.length_flatMap]
  have hinner : ∀ d ∈ List.range L,
      (List.length ∘ fun d =>
        (List.range n).flatMap (fun j => [d * n + j, d * n + j + 1, d * n + j + 2])) d
        = n * 3 := by
    intro d _
    simp only [Function.comp_apply]
    rw [List.length_flatMap]
    have : ∀ j ∈ List.range n,
        (List.length ∘ fun j => [d * n + j, d * n + j + 1, d * n + j + 2]) j = 3 := by
      intro j _
      rfl
    rw [List.map_congr_left this, List.map_const', List.sum_replicate, smul_eq_mul,
      List.length_range]
  rw [List.map_congr_left hinner, List.map_const', List.sum_replicate, smul_eq_mul,
    List.length_range]
  ring

theorem flatMapCongr {α β : Type} {l : List α} {f g : α → List β}
    (h : ∀ a ∈ l, f a = g a) : l.flatMap f = l.flatMap g := by
  induction l with
  | nil => rfl
  | cons a t ih =>
    rw [List.flatMap_cons, List.flatMap_cons, h a (by simp),
      ih (fun x hx => h x (by simp [hx]))]

theorem ansatzU3Congr {n L : ℕ} {p q : ℕ → ℚ} (ent : String)
    (h : ∀ i ∈ u3Reads n L, p i = q i) : ansatzU3 p n L ent = ansatzU3 q n L ent := by
  unfold ansatzU3
  congr 1
  apply flatMapCongr
  intro d hd
  have hdL : d < L := List.mem_range.1 hd
  congr 1
  unfold u3Layer
  apply List.map_congr_left
  intro j hj
  have hjn : j < n := List.mem_range.1 hj
  have e0 := h (d * n + j) (mem_u3Reads.2 ⟨d, hdL, j, hjn, Or.inl rfl⟩)
  have e1 := h (d * n + j + 1) (mem_u3Reads.2 ⟨d, hdL, j, hjn, Or.inr (Or.inl rfl)⟩)
  have e2 := h (d * n + j + 2) (mem_u3Reads.2 ⟨d, hdL, j, hjn, Or.inr (Or.inr rfl)⟩)
  rw [e0, e1, e2]

theorem ansatzRYRZCongr {n L : ℕ} {p q : ℕ → ℚ} (ent : String)
    (h : ∀ i ∈ ryrzReads n L, p i = q i) : ansatzRYRZ p n L ent = ansatzRYRZ q n L ent := by
  unfold ansatzRYRZ
  congr 1
  apply flatMapCongr
  intro d hd
  have hdL : d < L := List.mem_range.1 hd
  congr 1
  unfold ryrzLayer
  congr 1
  · apply List.map_congr_left
    intro j hj
    have hjn : j < n := List.mem_range.1 hj
    rw [h (j + 2 * d * n) (mem_ryrzReads.2 ⟨d, hdL, j, hjn, Or.inl rfl⟩)]
  · apply List.map_congr_left
    intro j hj
    have hjn : j < n := List.mem_range.1 hj
    rw [h (j + 2 * d * n + n) (mem_ryrzReads.2 ⟨d, hdL, j, hjn, Or.inr rfl⟩)]

theorem filterFlatMap {α β : Type} (l : List α) (f : α → List β) (p : β → Bool) :
    (l.flatMap f).filter p = l.flatMap (fun a => (f a).filter p) := by
  induction l with
  | nil => rfl
  | cons a t ih => rw [List.flatMap_cons, List.flatMap_cons, List.filter_append, ih]

theorem entGates_no_u (ent : String) (n : ℕ) :
    (entGates ent n).filter isU = [] := by
  rw [List.filter_eq_nil_iff]
  intro g hg
  unfold entGates at hg
  split_ifs at hg
  · unfold linearEnt at hg
    obtain ⟨k, hk, rfl⟩ := List.mem_map.1 hg
    simp [isU]
  · unfold fullEnt at hg
    obtain ⟨k, hk, hin⟩ := List.mem_flatMap.1 hg
    obtain ⟨q, hq, rfl⟩ := List.mem_map.1 hin
    simp [isU]
  · simp at hg

/-- Claim C9: in the U3 family the gate emitted for layer d and qubit j is a u
rotation on qubit j whose angles are the params entries d*n+j, d*n+j+1, d*n+j+2;
the u gates of the circuit are exactly the per-layer blocks based at cursor d*n
(the cursor advances by n, not 3n, per layer); and the 3*n*layers reads all land
inside the window below n*layers + 2, overlapping across layers. -/
theorem c9_u3_parameter_indexing (params : ℕ → ℚ) (n layers d j : ℕ) (ent : String)
    (hd : d < layers) (hj : j < n) :
    Gate.u (params (d * n + j)) (params (d * n + j + 1)) (params (d * n + j + 2)) j
        ∈ ansatzU3 params n layers ent
    ∧ (ansatzU3 params n layers ent).filter isU
        = (List.range layers).flatMap (fun e => u3Layer params n (e * n))
    ∧ (u3Reads n layers).length = 3 * n * layers
    ∧ (∀ i ∈ u3Reads n layers, i < n * layers + 2) := by
  refine ⟨?_, ?_, u3Reads_length n layers, fun i hi => by
    have := u3Reads_le hi
    omega⟩
  · unfold ansatzU3
    refine List.mem_append.2 (Or.inl ?_)
    refine List.mem_flatMap.2 ⟨d, List.mem_range.2 hd, ?_⟩
    refine List.mem_append.2 (Or.inl ?_)
    unfold u3Layer
    exact List.mem_map.2 ⟨j, List.mem_range.2 hj, rfl⟩
  · unfold ansatzU3
    rw [List.filter_append]
    have hm : List.filter isU [Gate.measureAll n] = [] := rfl
    rw [hm, List.append_nil, filterFlatMap]
    apply flatMapCongr
    intro e he
    rw [List.filter_append]
    have h1 : (u3Layer params n (e * n)).filter isU = u3Layer params n (e * n) := by
      rw [List.filter_eq_self]
      intro g hg
      unfold u3Layer at hg
      obtain ⟨j', hj', rfl⟩ := List.mem_map.1 hg
      rfl
    have h2 : (if e = layers - 1 then ([] : List Gate) else entGates ent n).filter isU
        = [] := by
      split_ifs
      · rfl
      · exact entGates_no_u ent n
    rw [h1, h2, List.append_nil]

/-- Witness for c9_u3_parameter_indexing at layer 1, qubit 0 of a 2-qubit
3-layer circuit. -/
theorem c9_u3_parameter_indexing_witness :
    Gate.u (pOne (1 * 2 + 0)) (pOne (1 * 2 + 0 + 1)) (pOne (1 * 2 + 0 + 2)) 0
        ∈ ansatzU3 pOne 2 3 "Linear"
    ∧ (ansatzU3 pOne 2 3 "Linear").filter isU
        = (List.range 3).flatMap (fun e => u3Layer pOne 2 (e * 2))
    ∧ (u3Reads 2 3).length = 3 * 2 * 3
    ∧ (∀ i ∈ u3Reads 2 3, i < 2 * 3 + 2) :=
  c9_u3_parameter_indexing pOne 2 3 1 0 "Linear" (by norm_num) (by norm_num)

/-- Claim C10 counterexample: at n = layers = 1 the U3 branch reads index 2,
which lies in the trailing block of n*layers entries starting at 2*n*layers, so
it is not true that the last n*layers parameter entries are never read. -/
theorem c10_counterexample :
    2 ∈ u3Reads 1 1 ∧ 2 * 1 * 1 ≤ 2 ∧ 2 < 3 * 1 * 1 := by decide

/-- Claim C10 (amended): every params index either branch reads is in bounds for
the construction-time vector of length 3*n*layers — the U3 branch reads no index
above n*layers + 1 and the RYRZ branch none above 2*n*layers - 1 — and whenever
n*layers ≥ 2 the trailing n*layers entries are read by neither branch (at
n = layers = 1 the U3 branch does read all three entries); the branches depend
on no other indices. -/
theorem c10_read_bounds (n layers : ℕ) (hn : 1 ≤ n) (hL : 1 ≤ layers) :
    (∀ i ∈ u3Reads n layers, i ≤ n * layers + 1)
    ∧ (∀ i ∈ ryrzReads n layers, i ≤ 2 * n * layers - 1)
    ∧ (∀ i ∈ u3Reads n layers, i < 3 * n * layers)
    ∧ (∀ i ∈ ryrzReads n layers, i < 3 * n * layers)
    ∧ (2 ≤ n * layers →
        ∀ t, 2 * n * layers ≤ t → t ∉ u3Reads n layers ∧ t ∉ ryrzReads n layers)
    ∧ (∀ p q ent, (∀ i ∈ u3Reads n layers, p i = q i) →
        ansatzU3 p n layers ent = ansatzU3 q n layers ent)
    ∧ (∀ p q ent, (∀ i ∈ ryrzReads n layers, p i = q i) →
        ansatzRYRZ p n layers ent = ansatzRYRZ q n layers ent) := by
  have hnl : 1 ≤ n * layers := Nat.one_le_iff_ne_zero.2 (Nat.mul_ne_zero (by omega) (by omega))
  have e3 : 3 * n * layers = 3 * (n * layers) := by ring
  have e2 : 2 * n * layers = 2 * (n * layers) := by ring
  refine ⟨fun i hi => u3Reads_le hi, fun i hi => ryrzReads_le hi, ?_, ?_, ?_, ?_, ?_⟩
  · intro i hi
    have := u3Reads_le hi
    rw [e3]
    linarith
  · intro i hi
    have h1 := ryrzReads_le hi
    rw [e2] at h1
    have hpos : 0 < 2 * (n * layers) := by linarith
    have hlt : i < 2 * (n * layers) := lt_of_le_of_lt h1 (Nat.sub_lt hpos one_pos)
    rw [e3]
    linarith
  · intro hbig t ht
    constructor
    · intro hmem
      have := u3Reads_le hmem
      rw [e2] at ht
      linarith
    · intro hmem
      have h1 := ryrzReads_le hmem
      rw [e2] at h1 ht
      have hpos : 0 < 2 * (n * layers) := by linarith
      have hlt : t < 2 * (n * layers) := lt_of_le_of_lt h1 (Nat.sub_lt hpos one_pos)
      linarith
  · intro p q ent h
    exact ansatzU3Congr ent h
  · intro p q ent h
    exact ansatzRYRZCongr ent h

/-- Witness for c10_read_bounds at n = 2, layers = 3. -/
theorem c10_read_bounds_witness :
    (∀ i ∈ u3Reads 2 3, i ≤ 2 * 3 + 1)
    ∧ (∀ i ∈ ryrzReads 2 3, i ≤ 2 * 2 * 3 - 1)
    ∧ (∀ i ∈ u3Reads 2 3, i < 3 * 2 * 3)
    ∧ (∀ i ∈ ryrzReads 2 3, i < 3 * 2 * 3)
    ∧ (2 ≤ 2 * 3 →
        ∀ t, 2 * 2 * 3 ≤ t → t ∉ u3Reads 2 3 ∧ t ∉ ryrzReads 2 3)
    ∧ (∀ p q ent, (∀ i ∈ u3Reads 2 3, p i = q i) →
        ansatzU3 p 2 3 ent = ansatzU3 q 2 3 ent)
    ∧ (∀ p q ent, (∀ i ∈ ryrzReads 2 3, p i = q i) →
        ansatzRYRZ p 2 3 ent = ansatzRYRZ q 2 3 ent) :=
  c10_read_bounds 2 3 (by norm_num) (by norm_num)

/-! Helper lemmas about the reconciliation loop and the probability vector. -/

theorem foldl_reconcileStep (n : ℕ) :
    ∀ l : List ℕ, l.Nodup → ∀ acc : List (String × ℚ),
      l.foldl (reconcileStep n) acc
        = acc ++ (l.filter (fun j => !(acc.any (fun kv => kv.1 == binaryCheck n j)))).map
            (fun j => (binaryCheck n j, (0 : ℚ))) := by
  intro l
  induction l with
  | nil =>
    intro _ acc
    simp
  | cons j t ih =>
    intro hnd acc
    have hj : j ∉ t := (List.nodup_cons.1 hnd).1
    have hnd' : t.Nodup := (List.nodup_cons.1 hnd).2
    rw [List.foldl_cons, List.filter_cons]
    by_cases hmem : acc.any (fun kv => kv.1 == binaryCheck n j) = true
    · have hstep : reconcileStep n acc j = acc := by
        simp [reconcileStep, hmem]
      rw [hstep, ih hnd' acc]
      simp [hmem]
    · have hstep : reconcileStep n acc j = acc ++ [(binaryCheck n j, 0)] := by
        simp [reconcileStep, hmem]
      rw [hstep, ih hnd' (acc ++ [(binaryCheck n j, 0)])]
      have hfeq : t.filter
            (fun i => !((acc ++ [(binaryCheck n j, 0)]).any (fun kv => kv.1 == binaryCheck n i)))
          = t.filter (fun i => !(acc.any (fun kv => kv.1 == binaryCheck n i))) := by
        apply List.filter_congr
        intro i hi
        have hne : binaryCheck n j ≠ binaryCheck n i := by
          intro he
          have hji : j = i := binaryCheck_inj n he
          exact hj (by rw [hji]; exact hi)
        have hbeq : (binaryCheck n j == binaryCheck n i) = false :=
          beq_eq_false_iff_ne.2 hne
        simp [List.any_append, hbeq]
      rw [hfeq]
      simp only [Bool.not_eq_true] at hmem
      simp [hmem, List.append_assoc]

theorem length_filter_not {α : Type} (p : α → Bool) (l : List α) :
    (l.filter p).length + (l.filter (fun a => !(p a))).length = l.length := by
  induction l with
  | nil => rfl
  | cons a t ih =>
    cases hpa : p a <;> simp [List.filter_cons, hpa] <;> omega

theorem reconcile_length (N n : ℕ) (counts : List (String × ℚ))
    (hkeys : ∀ kv ∈ counts, ∃ j, j < N ∧ kv.1 = binaryCheck n j)
    (hnd : (counts.map Prod.fst).Nodup) :
    (reconcile N n counts).length = N := by
  unfold reconcile
  by_cases hlen : counts.length ≠ N
  · rw [if_pos hlen, foldl_reconcileStep n (List.range N) (List.nodup_range N) counts,
      List.length_append, List.length_map]
    have hsplit :
        ((List.range N).filter (fun j => counts.any (fun kv => kv.1 == binaryCheck n j))).length
          + ((List.range N).filter
              (fun j => !(counts.any (fun kv => kv.1 == binaryCheck n j)))).length
          = N := by
      rw [length_filter_not, List.length_range]
    have hpres :
        ((List.range N).filter
            (fun j => counts.any (fun kv => kv.1 == binaryCheck n j))).length
          = counts.length := by
      set present :=
        (List.range N).filter (fun j => counts.any (fun kv => kv.1 == binaryCheck n j))
        with hpresent
      have hnd1 : (present.map (binaryCheck n)).Nodup :=
        ((List.nodup_range N).filter _).map (binaryCheck_inj n)
      have hsub1 : present.map (binaryCheck n) ⊆ counts.map Prod.fst := by
        intro s hs
        obtain ⟨j, hjmem, rfl⟩ := List.mem_map.1 hs
        have hany := (List.mem_filter.1 hjmem).2
        obtain ⟨kv, hkv, hbeq⟩ := List.any_eq_true.1 hany
        have hkey : kv.1 = binaryCheck n j := by simpa using hbeq
        exact List.mem_map.2 ⟨kv, hkv, hkey⟩
      have hsub2 : counts.map Prod.fst ⊆ present.map (binaryCheck n) := by
        intro s hs
        obtain ⟨kv, hkv, rfl⟩ := List.mem_map.1 hs
        obtain ⟨j, hjN, hkey⟩ := hkeys kv hkv
        have hjp : j ∈ present := by
          refine List.mem_filter.2 ⟨List.mem_range.2 hjN, ?_⟩
          exact List.any_eq_true.2 ⟨kv, hkv, by simp [hkey]⟩
        exact List.mem_map.2 ⟨j, hjp, hkey.symm⟩
      have hle1 := (List.subperm_of_subset hnd1 hsub1).length_le
      have hle2 := (List.subperm_of_subset hnd hsub2).length_le
      rw [List.length_map, List.length_map] at hle1 hle2
      omega
    omega
  · rw [if_neg hlen]
    omega

theorem reconcile_values_sum (N n : ℕ) (counts : List (String × ℚ)) :
    ((reconcile N n counts).map Prod.snd).sum = (counts.map Prod.snd).sum := by
  unfold reconcile
  split
  · rw [foldl_reconcileStep n (List.range N) (List.nodup_range N) counts,
      List.map_append, List.sum_append, List.map_map]
    have hz : (List.map
        (Prod.snd ∘ fun j => (binaryCheck n j, (0 : ℚ)))
        ((List.range N).filter
          (fun j => !(counts.any (fun kv => kv.1 == binaryCheck n j))))).sum = 0 := by
      have hzf : (Prod.snd ∘ fun j => (binaryCheck n j, (0 : ℚ))) = fun _ => (0 : ℚ) := rfl
      rw [hzf, List.map_const', List.sum_replicate, smul_zero]
    rw [hz, add_zero]
  · rfl

theorem sortByKey_perm (l : List (String × ℚ)) : (sortByKey l).Perm l :=
  List.perm_insertionSort _ l

theorem prob_dist_of_len_ne_one (counts : List (String × ℚ)) (shots : ℚ)
    (h : counts.length ≠ 1) :
    prob_dist counts shots = counts.map (fun kv => kv.2 / shots) := by
  simp [prob_dist, h]

theorem sum_map_div (l : List (String × ℚ)) (c : ℚ) :
    (l.map (fun kv => kv.2 / c)).sum = (l.map Prod.snd).sum / c := by
  induction l with
  | nil => simp
  | cons a t ih => simp [ih, add_div]

/-- Claim C4 counterexample: with an empty OutcomeCounts, the reconciled and
sorted probability vector of the Evaluator is the all-zero vector, whose sum is
0, not approximately 1. -/
theorem c4_counterexample :
    evaluator_distribution (2 ^ 1) 1 [] 1024 = [0, 0]
    ∧ (evaluator_distribution (2 ^ 1) 1 [] 1024).sum = 0 ∧ (0 : ℚ) ≠ 1 := by
  have hs : sortByKey (reconcile (2 ^ 1) 1 []) = [("0", 0), ("1", 0)] := by decide
  have h : evaluator_distribution (2 ^ 1) 1 [] 1024 = [0, 0] := by
    rw [evaluator_distribution, hs]
    norm_num [prob_dist]
  refine ⟨h, by rw [h]; norm_num, by norm_num⟩

/-- Claim C4 (amended): for every qubit count n ≥ 1 and any OutcomeCounts whose
keys are distinct width-n zero-padded bitstrings (including empty and sparse
mappings), the Evaluator's reconciled, sorted, normalized probability vector has
exactly 2^n entries and sums to (total observed count)/shots — hence to 1
exactly when the backend's counts total the shot budget. -/
theorem c4_reconciled_distribution (n : ℕ) (counts : List (String × ℚ)) (shots : ℚ)
    (hn : 1 ≤ n)
    (hkeys : ∀ kv ∈ counts, ∃ j, j < 2 ^ n ∧ kv.1 = binaryCheck n j)
    (hnd : (counts.map Prod.fst).Nodup) :
    (evaluator_distribution (2 ^ n) n counts shots).length = 2 ^ n
    ∧ (evaluator_distribution (2 ^ n) n counts shots).sum
        = (counts.map Prod.snd).sum / shots := by
  have hrl : (reconcile (2 ^ n) n counts).length = 2 ^ n :=
    reconcile_length _ _ _ hkeys hnd
  have hsp : (sortByKey (reconcile (2 ^ n) n counts)).Perm (reconcile (2 ^ n) n counts) :=
    sortByKey_perm _
  have hsl : (sortByKey (reconcile (2 ^ n) n counts)).length = 2 ^ n := by
    rw [hsp.length_eq, hrl]
  have h2 : (2 : ℕ) ≤ 2 ^ n := by
    calc (2 : ℕ) = 2 ^ 1 := rfl
      _ ≤ 2 ^ n := Nat.pow_le_pow_right (by norm_num) hn
  have hne1 : (sortByKey (reconcile (2 ^ n) n counts)).length ≠ 1 := by omega
  constructor
  · rw [evaluator_distribution, prob_dist_of_len_ne_one _ _ hne1, List.length_map, hsl]
  · rw [evaluator_distribution, prob_dist_of_len_ne_one _ _ hne1, sum_map_div,
      (hsp.map Prod.snd).sum_eq, reconcile_values_sum]

/-- Witness for c4_reconciled_distribution at n = 1 with the empty mapping. -/
theorem c4_reconciled_distribution_witness :
    (evaluator_distribution (2 ^ 1) 1 [] 1024).length = 2 ^ 1
    ∧ (evaluator_distribution (2 ^ 1) 1 [] 1024).sum
        = (([] : List (String × ℚ)).map Prod.snd).sum / 1024 :=
  c4_reconciled_distribution 1 [] 1024 le_rfl (by intro kv h; cases h) (by simp)

/-- Claim C5 (code bug): the display distribution of the final re-run performs no
reconciliation, so on the sparse counts {"00": 1024} of a 2-qubit system it
returns [1, 0] with only 2 entries instead of the full 2^2 = 4, and its index 1
holds a fabricated complement, not the mass of bitstring "01"; the in-code
comment at lines 199-202 promises alignment with the full target ordering. -/
theorem c5_display_distribution_short :
    display_distribution [("00", 1024)] 1024 = [1, 0]
    ∧ (display_distribution [("00", 1024)] 1024).length ≠ 2 ^ 2 := by
  have hs : sortByKey [("00", (1024 : ℚ))] = [("00", 1024)] := by decide
  have h : display_distribution [("00", 1024)] 1024 = [1, 0] := by
    rw [display_distribution, hs]
    norm_num [prob_dist]
  exact ⟨h, by rw [h]; norm_num⟩

end VQA
